import Mathlib

/-!
Shallow embedding of the `shostspec` host-list expander (`src/main.rs`).

Strings are modelled as `List Char`.  The Rust standard-library pieces the
program uses (`str::split_once`, `str::split`, `str::trim_end_matches`,
`str::strip_prefix`, `u64::from_str`, `RangeInclusive<u64>` as an iterator)
are embedded faithfully; machine integers are `Nat` with the explicit
u64 bound where overflow matters.
-/

/-- Models `str::split_once(sep)` for a one-character pattern: splits at the
first occurrence of `sep`, returning the parts before and after it. -/
def splitOnce (sep : Char) : List Char → Option (List Char × List Char)
  | [] => none
  | c :: rest =>
    if c = sep then some ([], rest)
    else (splitOnce sep rest).map (fun q => (c :: q.1, q.2))

/-- Models `str::strip_prefix`: `stripPre p s` removes leading `p` from `s`
if `s` starts with it. (`p` plays the role of the pattern argument.) -/
def stripPre : List Char → List Char → Option (List Char)
  | [], s => some s
  | _ :: _, [] => none
  | p :: ps, c :: cs => if p = c then stripPre ps cs else none

/-- Models `str::trim_end_matches(|c| c.is_ascii_digit())`: drops the maximal
trailing run of ASCII digits. -/
def trimEndDigits (s : List Char) : List Char :=
  (s.reverse.dropWhile Char.isDigit).reverse

/-- The error kinds `u64::from_str` can produce on this program's inputs
(Rust `std::num::IntErrorKind`). -/
inductive ParseIntError where
  | empty
  | invalidDigit
  | posOverflow
deriving DecidableEq, Repr

/-- `u64::MAX`. -/
def u64MAX : Nat := 18446744073709551615

/-- The digit-accumulation loop of `from_str_radix` at radix 10: each
non-digit fails with `invalidDigit`, and exceeding `u64::MAX` fails with
`posOverflow`. -/
def parseU64Digits : List Char → Nat → Except ParseIntError Nat
  | [], acc => .ok acc
  | c :: rest, acc =>
    if c.isDigit then
      let acc2 := acc * 10 + (c.toNat - 48)
      if u64MAX < acc2 then .error .posOverflow
      else parseU64Digits rest acc2
    else .error .invalidDigit

/-- Models `str::parse::<u64>()`: empty input is `empty`; a leading `+` is
allowed when digits follow; `-` is rejected for the unsigned type. -/
def parseU64 (s : List Char) : Except ParseIntError Nat :=
  match s with
  | [] => .error .empty
  | c :: rest =>
    if c = '+' then
      if rest = [] then .error .invalidDigit else parseU64Digits rest 0
    else if c = '-' then .error .invalidDigit
    else parseU64Digits s 0

/-- Models Rust `RangeInclusive<u64>` together with its iterator state:
fields `start`, `end` (here `endV`, since `end` is a Lean keyword) and the
`exhausted` flag.  `a..=b` constructs `⟨a, b, false⟩`. -/
structure RangeIncl where
  start : Nat
  endV : Nat
  exhausted : Bool
deriving DecidableEq, Repr

/-- `RangeInclusive::is_empty`: exhausted, or `start > end`. -/
def RangeIncl.isEmpty (r : RangeIncl) : Bool :=
  r.exhausted || decide (r.endV < r.start)

/-- `<RangeInclusive as Iterator>::next`: `None` on an empty range; otherwise
yield `start`, incrementing it while `start < end` and setting `exhausted`
when `start = end`. -/
def RangeIncl.next (r : RangeIncl) : Option Nat × RangeIncl :=
  if r.isEmpty then (none, r)
  else if r.start < r.endV then (some r.start, ⟨r.start + 1, r.endV, false⟩)
  else (some r.start, ⟨r.start, r.endV, true⟩)

/-- Fuel-indexed collection of the `RangeIncl` iterator into a list (the fuel
makes the recursion structural so that terms reduce; `RangeIncl.toList` picks
a sufficient fuel, and `RangeIncl.toList_eq_next` proves the result satisfies
the iterator unfolding exactly). -/
def RangeIncl.toListAux : Nat → RangeIncl → List Nat
  | 0, _ => []
  | fuel + 1, r =>
    if r.isEmpty then []
    else if r.start < r.endV then r.start :: RangeIncl.toListAux fuel ⟨r.start + 1, r.endV, false⟩
    else [r.start]

/-- The full sequence of values the `RangeIncl` iterator yields. -/
def RangeIncl.toList (r : RangeIncl) : List Nat :=
  RangeIncl.toListAux (r.endV + 2 - r.start) r

/-- The struct `HostSpec { numeric: RangeInclusive<u64>, prefix: String }`
(`prefix` is a Lean keyword, so the field is named `pfx`). -/
structure HostSpec where
  numeric : RangeIncl
  pfx : List Char
deriving DecidableEq, Repr

/-- Decimal rendering of a number, as Rust `format!` does for `u64`. -/
def natToDec (n : Nat) : List Char :=
  (Nat.repr n).data

/-- `<HostSpec as Iterator>::next`: step the numeric range and format
`prefix` followed by the yielded number. -/
def HostSpec.next (h : HostSpec) : Option (List Char) × HostSpec :=
  ((h.numeric.next).1.map (fun n => h.pfx ++ natToDec n), ⟨(h.numeric.next).2, h.pfx⟩)

/-- The full sequence of strings the `HostSpec` iterator yields. -/
def HostSpec.toList (h : HostSpec) : List (List Char) :=
  h.numeric.toList.map (fun n => h.pfx ++ natToDec n)

/-- The error enum `ParseError` of `main.rs`; `BadNumbers` carries the
underlying `ParseIntError` (the `#[from]` conversion). -/
inductive ParseError where
  | ExtraStuff
  | BadNumbers (e : ParseIntError)
  | NoRange
deriving DecidableEq, Repr

/-- `transform_numeric_range`: split at the first `-` and parse both sides,
or parse the whole fragment as a single integer `n` giving `n..=n`. -/
def transform_numeric_range (range_str : List Char) : Except ParseIntError RangeIncl :=
  match splitOnce '-' range_str with
  | some (s, e) =>
    match parseU64 s with
    | .error err => .error err
    | .ok start_n =>
      match parseU64 e with
      | .error err => .error err
      | .ok end_n => .ok ⟨start_n, end_n, false⟩
  | none =>
    match parseU64 range_str with
    | .error err => .error err
    | .ok single_int => .ok ⟨single_int, single_int, false⟩

/-- `HostSpec::from_single`: trim the trailing digits to get the prefix,
strip that prefix to recover the numeric part (the Rust code `unwrap`s the
`strip_prefix`, which never fails; `getD []` models that unwrap), and parse
it; a parse failure becomes `BadNumbers` via `?`. -/
def HostSpec.from_single (host : List Char) : Except ParseError HostSpec :=
  let p := trimEndDigits host
  let numeric_part := (stripPre p host).getD []
  match parseU64 numeric_part with
  | .error e => .error (.BadNumbers e)
  | .ok host_number => .ok ⟨⟨host_number, host_number, false⟩, p⟩

/-- The `range.split(',').map(transform_numeric_range).map(…).collect()`
chain of `transform_single_hostspec`: one `HostSpec` per fragment, all with
the same prefix, short-circuiting at the first failing fragment. -/
def collectSpecs (p : List Char) : List (List Char) → Except ParseError (List HostSpec)
  | [] => .ok []
  | f :: fs =>
    match transform_numeric_range f with
    | .error e => .error (.BadNumbers e)
    | .ok r =>
      match collectSpecs p fs with
      | .error e => .error e
      | .ok t => .ok (⟨r, p⟩ :: t)

/-- `transform_single_hostspec`: split at the first `[`; if present, split
the remainder at the first `]` (else `NoRange`); reject a non-empty suffix
with `ExtraStuff`; otherwise parse the comma-separated fragments.  With no
`[`, fall back to `HostSpec::from_single`. -/
def transform_single_hostspec (item : List Char) : Except ParseError (List HostSpec) :=
  match splitOnce '[' item with
  | some (p, rangesuffix) =>
    match splitOnce ']' rangesuffix with
    | some (range, suffix) =>
      if suffix ≠ [] then .error .ExtraStuff
      else collectSpecs p (range.splitOn ',')
    | none => .error .NoRange
  | none =>
    match HostSpec.from_single item with
    | .ok i => .ok [i]
    | .error e => .error e

/-- The full expansion of one expression: decompose it and concatenate the
expansions of the resulting `HostSpec`s. -/
def expandExpr (s : List Char) : Except ParseError (List (List Char)) :=
  match transform_single_hostspec s with
  | .ok specs => .ok ((specs.map HostSpec.toList).flatten)
  | .error e => .error e

/-- The lines one argument contributes to the output of `main` (empty for an
empty argument, and unused past the first failure). -/
def itemOut (item : List Char) : List (List Char) :=
  if item = [] then []
  else
    match transform_single_hostspec item with
    | .ok specs => (specs.map HostSpec.toList).flatten
    | .error _ => []

/-- The pipeline of `main` from position `n` on: enumerate the arguments,
skip empty ones, decompose each, and on the first failure stop with that
failure and the argument's original position; successful expansions already
produced are kept (they were printed before the `exit(1)`). -/
def runMain (n : Nat) (itemsList : List (List Char)) :
    List (List Char) × Option (Nat × ParseError) :=
  match itemsList with
  | [] => ([], none)
  | item :: rest =>
    if item = [] then runMain (n + 1) rest
    else
      match transform_single_hostspec item with
      | .error e => ([], some (n, e))
      | .ok specs =>
        let out := (specs.map HostSpec.toList).flatten
        let step := runMain (n + 1) rest
        (out ++ step.1, step.2)

/-- Decidable equality for `Except`, so concrete runs can be checked by
`decide`. -/
instance instDecEqExcept {ε α : Type} [DecidableEq ε] [DecidableEq α] :
    DecidableEq (Except ε α)
  | .ok x, .ok y =>
    if h : x = y then .isTrue (h ▸ rfl) else .isFalse (fun he => h (by injection he))
  | .error x, .error y =>
    if h : x = y then .isTrue (h ▸ rfl) else .isFalse (fun he => h (by injection he))
  | .ok _, .error _ => .isFalse (fun he => Except.noConfusion he)
  | .error _, .ok _ => .isFalse (fun he => Except.noConfusion he)

/-! ### Lemmas about the embedded string helpers -/

theorem splitOnce_of_not_mem {sep : Char} {s : List Char} (h : sep ∉ s) :
    splitOnce sep s = none := by
  induction s with
  | nil => rfl
  | cons c rest ih =>
    have hc : ¬ c = sep := fun he => h (he ▸ List.mem_cons_self c rest)
    have hr : sep ∉ rest := fun hm => h (List.mem_cons_of_mem c hm)
    simp [splitOnce, hc, ih hr]

theorem splitOnce_append {sep : Char} {a : List Char} (b : List Char) (h : sep ∉ a) :
    splitOnce sep (a ++ sep :: b) = some (a, b) := by
  induction a with
  | nil => simp [splitOnce]
  | cons c rest ih =>
    have hc : ¬ c = sep := fun he => h (he ▸ List.mem_cons_self c rest)
    have hr : sep ∉ rest := fun hm => h (List.mem_cons_of_mem c hm)
    simp [splitOnce, hc, ih hr]

theorem splitOnce_eq_some {sep : Char} {s a b : List Char}
    (h : splitOnce sep s = some (a, b)) : s = a ++ sep :: b ∧ sep ∉ a := by
  induction s generalizing a with
  | nil => simp [splitOnce] at h
  | cons c rest ih =>
    by_cases hc : c = sep
    · simp [splitOnce, hc] at h
      obtain ⟨h1, h2⟩ := h
      subst h1
      subst h2
      simp [hc]
    · rw [splitOnce, if_neg hc] at h
      cases hsp : splitOnce sep rest with
      | none => rw [hsp] at h; simp at h
      | some q =>
        obtain ⟨a', b'⟩ := q
        rw [hsp] at h
        simp only [Option.map_some'] at h
        injection h with hp
        injection hp with h1 h2
        subst h1
        subst h2
        obtain ⟨ih1, ih2⟩ := ih hsp
        refine ⟨by simp [ih1], ?_⟩
        intro hm
        rcases List.mem_cons.mp hm with he | hm2
        · exact hc he.symm
        · exact ih2 hm2

theorem stripPre_append (p r : List Char) : stripPre p (p ++ r) = some r := by
  induction p with
  | nil => rfl
  | cons c rest ih => simp [stripPre, ih]

theorem dropWhile_append_of_all {q : Char → Bool} {l₁ l₂ : List Char}
    (h : ∀ c ∈ l₁, q c = true) :
    List.dropWhile q (l₁ ++ l₂) = List.dropWhile q l₂ := by
  induction l₁ with
  | nil => rfl
  | cons c rest ih =>
    have hc := h c (List.mem_cons_self c rest)
    simp only [List.cons_append, List.dropWhile_cons, hc, if_pos]
    exact ih (fun x hx => h x (List.mem_cons_of_mem c hx))

theorem dropWhile_eq_self_of_getLast {q : Char → Bool} {p : List Char}
    (h : ∀ c, p.getLast? = some c → q c = false) :
    List.dropWhile q p.reverse = p.reverse := by
  rcases hrev : p.reverse with _ | ⟨c, t⟩
  · rfl
  · have hc : p.getLast? = some c := by
      rw [List.getLast?_eq_head?_reverse, hrev]; rfl
    simp [List.dropWhile_cons, h c hc]

theorem trimEndDigits_append {p d : List Char}
    (hd : ∀ c ∈ d, c.isDigit = true)
    (hp : ∀ c, p.getLast? = some c → c.isDigit = false) :
    trimEndDigits (p ++ d) = p := by
  unfold trimEndDigits
  rw [List.reverse_append]
  rw [dropWhile_append_of_all (by intro c hc; exact hd c (List.mem_reverse.mp hc))]
  rw [dropWhile_eq_self_of_getLast hp, List.reverse_reverse]

theorem trimEndDigits_pre (s : List Char) : trimEndDigits s <+: s := by
  have h : (trimEndDigits s).reverse <:+ s.reverse := by
    unfold trimEndDigits
    rw [List.reverse_reverse]
    exact List.dropWhile_suffix _
  exact List.reverse_suffix.mp (by simpa using h)

theorem stripPre_isSome_of_pre {p s : List Char} (h : p <+: s) :
    (stripPre p s).isSome = true := by
  obtain ⟨t, ht⟩ := h
  rw [← ht, stripPre_append]
  rfl

/-! ### Lemmas about the range iterator -/

theorem toListAux_of_isEmpty {r : RangeIncl} (fuel : Nat) (h : r.isEmpty = true) :
    RangeIncl.toListAux fuel r = [] := by
  cases fuel with
  | zero => rfl
  | succ f => simp [RangeIncl.toListAux, h]

theorem toListAux_eq_range' (fuel : Nat) :
    ∀ lo hi : Nat, hi + 1 - lo ≤ fuel →
      RangeIncl.toListAux fuel ⟨lo, hi, false⟩ = List.range' lo (hi + 1 - lo) := by
  induction fuel with
  | zero =>
    intro lo hi hle
    have h0 : hi + 1 - lo = 0 := Nat.le_zero.mp hle
    rw [h0]
    rfl
  | succ f ih =>
    intro lo hi hle
    rw [RangeIncl.toListAux]
    by_cases hempty : hi < lo
    · have hE : RangeIncl.isEmpty ⟨lo, hi, false⟩ = true := by
        simp [RangeIncl.isEmpty, hempty]
      have h0 : hi + 1 - lo = 0 := by omega
      rw [if_pos hE, h0]
      rfl
    · have hE : RangeIncl.isEmpty ⟨lo, hi, false⟩ = false := by
        simp [RangeIncl.isEmpty]
        omega
      rw [if_neg (by simp [hE])]
      by_cases hlt : lo < hi
      · rw [if_pos (by simpa using hlt)]
        have hsub : hi + 1 - (lo + 1) ≤ f := by omega
        rw [ih (lo + 1) hi hsub]
        have hn : hi + 1 - lo = (hi + 1 - (lo + 1)) + 1 := by omega
        rw [hn, List.range'_succ]
      · rw [if_neg (by simpa using hlt)]
        have heq : lo = hi := by omega
        have hn : hi + 1 - lo = 1 := by omega
        rw [hn, List.range'_succ]
        simp [heq]

theorem RangeIncl.toList_eq_range' (lo hi : Nat) :
    RangeIncl.toList ⟨lo, hi, false⟩ = List.range' lo (hi + 1 - lo) := by
  exact toListAux_eq_range' (hi + 2 - lo) lo hi (by omega)

theorem RangeIncl.toList_eq_next (r : RangeIncl) :
    r.toList = (match r.next with
      | (none, _) => []
      | (some n, r2) => n :: r2.toList) := by
  obtain ⟨lo, hi, ex⟩ := r
  cases ex with
  | true =>
    have hE : RangeIncl.isEmpty ⟨lo, hi, true⟩ = true := by simp [RangeIncl.isEmpty]
    rw [RangeIncl.next, if_pos hE]
    exact toListAux_of_isEmpty _ hE
  | false =>
    by_cases hempty : hi < lo
    · have hE : RangeIncl.isEmpty ⟨lo, hi, false⟩ = true := by
        simp [RangeIncl.isEmpty, hempty]
      rw [RangeIncl.next, if_pos hE]
      exact toListAux_of_isEmpty _ hE
    · have hE : RangeIncl.isEmpty ⟨lo, hi, false⟩ = false := by
        simp [RangeIncl.isEmpty]; omega
      rw [RangeIncl.next, if_neg (by simp [hE])]
      by_cases hlt : lo < hi
      · rw [if_pos hlt]
        show RangeIncl.toList ⟨lo, hi, false⟩ = lo :: RangeIncl.toList ⟨lo + 1, hi, false⟩
        rw [RangeIncl.toList_eq_range', RangeIncl.toList_eq_range']
        have hn : hi + 1 - lo = (hi + 1 - (lo + 1)) + 1 := by omega
        rw [hn, List.range'_succ]
      · rw [if_neg hlt]
        show RangeIncl.toList ⟨lo, hi, false⟩ = lo :: RangeIncl.toList ⟨lo, hi, true⟩
        have heq : lo = hi := by omega
        rw [RangeIncl.toList_eq_range']
        have hn : hi + 1 - lo = 1 := by omega
        rw [hn, List.range'_succ]
        have hE2 : RangeIncl.isEmpty ⟨lo, hi, true⟩ = true := by simp [RangeIncl.isEmpty]
        unfold RangeIncl.toList
        rw [toListAux_of_isEmpty _ hE2]
        simp [heq]

theorem HostSpec.toList_unfold (h : HostSpec) :
    h.toList = (match h.next with
      | (none, _) => []
      | (some s, h2) => s :: h2.toList) := by
  obtain ⟨r, p⟩ := h
  show HostSpec.toList ⟨r, p⟩ = _
  unfold HostSpec.next
  rw [HostSpec.toList, RangeIncl.toList_eq_next r]
  rcases hn : r.next with ⟨onn, r2⟩
  cases onn with
  | none => simp
  | some n => simp [HostSpec.toList]

/-! ### Lemmas about decomposition -/

theorem collectSpecs_ok {p : List Char} {fs : List (List Char)} {rs : List RangeIncl}
    (h : List.Forall₂ (fun f r => transform_numeric_range f = Except.ok r) fs rs) :
    collectSpecs p fs = Except.ok (rs.map (fun r => ⟨r, p⟩)) := by
  induction h with
  | nil => rfl
  | cons hfr _ ih =>
    rw [collectSpecs, hfr, ih]
    rfl

theorem collectSpecs_err {p : List Char} {pre post : List (List Char)}
    {f : List Char} {e : ParseIntError}
    (hok : ∀ g ∈ pre, ∃ r, transform_numeric_range g = Except.ok r)
    (hfail : transform_numeric_range f = Except.error e) :
    collectSpecs p (pre ++ f :: post) = Except.error (.BadNumbers e) := by
  induction pre with
  | nil =>
    rw [List.nil_append, collectSpecs, hfail]
  | cons g rest ih =>
    obtain ⟨r, hr⟩ := hok g (List.mem_cons_self g rest)
    rw [List.cons_append, collectSpecs, hr,
      ih (fun x hx => hok x (List.mem_cons_of_mem g hx))]

theorem collectSpecs_pfx {p : List Char} {fs : List (List Char)} {specs : List HostSpec}
    (h : collectSpecs p fs = Except.ok specs) :
    ∀ sp ∈ specs, sp.pfx = p := by
  induction fs generalizing specs with
  | nil =>
    rw [collectSpecs] at h
    injection h with h
    subst h
    intro sp hsp
    simp at hsp
  | cons f rest ih =>
    rw [collectSpecs] at h
    cases hf : transform_numeric_range f with
    | error e => rw [hf] at h; exact absurd h (by simp)
    | ok r =>
      rw [hf] at h
      cases hrest : collectSpecs p rest with
      | error e => rw [hrest] at h; exact absurd h (by simp)
      | ok t =>
        rw [hrest] at h
        injection h with h
        subst h
        intro sp hsp
        rcases List.mem_cons.mp hsp with he | hm
        · subst he; rfl
        · exact ih hrest sp hm

/-- Decomposition of a well-bracketed expression reduces to `collectSpecs`
over the comma-split of the range list. -/
theorem transform_bracketed {p rl : List Char} (hp : '[' ∉ p) (hr : ']' ∉ rl) :
    transform_single_hostspec (p ++ '[' :: (rl ++ [']'])) =
      collectSpecs p (rl.splitOn ',') := by
  rw [transform_single_hostspec, splitOnce_append _ hp]
  have h2 : splitOnce ']' (rl ++ [']']) = some (rl, []) := splitOnce_append [] hr
  simp [h2]

/-- Decomposition of a bracket-free expression written as prefix ++ digit
run: it reduces to parsing the digit run, the prefix being everything before
the maximal trailing run of digits. -/
theorem transform_bare {p d : List Char}
    (hnb : '[' ∉ p) (hd : ∀ c ∈ d, c.isDigit = true)
    (hpl : ∀ c, p.getLast? = some c → c.isDigit = false) :
    transform_single_hostspec (p ++ d) =
      (match parseU64 d with
        | .ok n => Except.ok [⟨⟨n, n, false⟩, p⟩]
        | .error e => Except.error (ParseError.BadNumbers e)) := by
  have hnd : '[' ∉ d := fun hm => absurd (hd '[' hm) (by decide)
  have hno : '[' ∉ p ++ d := by
    intro hm
    rcases List.mem_append.mp hm with h | h
    · exact hnb h
    · exact hnd h
  rw [transform_single_hostspec, splitOnce_of_not_mem hno]
  simp only [HostSpec.from_single, trimEndDigits_append hd hpl, stripPre_append,
    Option.getD_some]
  cases hparse : parseU64 d <;> simp

/-- The prefix recorded by `HostSpec::from_single` is the digit-trimmed
input. -/
theorem from_single_pfx {s : List Char} {i : HostSpec}
    (h : HostSpec.from_single s = Except.ok i) : i.pfx = trimEndDigits s := by
  rw [HostSpec.from_single] at h
  cases hp : parseU64 ((stripPre (trimEndDigits s) s).getD []) with
  | error e => rw [hp] at h; exact absurd h (by simp)
  | ok n =>
    rw [hp] at h
    injection h with h
    subst h
    rfl

/-- The pipeline of `main`, started at position `n`: if the argument at
relative position `k` is the first non-empty one whose decomposition fails,
the run produces the expansions of the arguments before it and stops with
that failure at absolute position `n + k`. -/
theorem runMain_fail_general (items : List (List Char)) (k : Nat) (e : ParseError) (n : Nat)
    (hne : items.getD k [] ≠ [])
    (hfail : transform_single_hostspec (items.getD k []) = Except.error e)
    (hbefore : ∀ i, i < k → items.getD i [] = [] ∨
      ∃ specs, transform_single_hostspec (items.getD i []) = Except.ok specs) :
    runMain n items = (((items.take k).map itemOut).flatten, some (n + k, e)) := by
  induction items generalizing n k with
  | nil => simp [List.getD] at hne
  | cons item rest ih =>
    cases k with
    | zero =>
      simp only [List.getD_cons_zero] at hne hfail
      simp only [runMain, if_neg hne, hfail, List.take_zero, List.map_nil,
        List.flatten_nil, Nat.add_zero]
    | succ k' =>
      have hne' : rest.getD k' [] ≠ [] := by simpa using hne
      have hfail' : transform_single_hostspec (rest.getD k' []) = Except.error e := by
        simpa using hfail
      have hbefore' : ∀ i, i < k' → rest.getD i [] = [] ∨
          ∃ specs, transform_single_hostspec (rest.getD i []) = Except.ok specs := by
        intro i hi
        simpa using hbefore (i + 1) (Nat.succ_lt_succ hi)
      have harith : n + 1 + k' = n + (k' + 1) := by omega
      by_cases hitem : item = []
      · rw [runMain, if_pos hitem, ih k' (n + 1) hne' hfail' hbefore',
          List.take_succ_cons, List.map_cons, List.flatten_cons, harith]
        rw [itemOut, if_pos hitem, List.nil_append]
      · have h0 := hbefore 0 (Nat.succ_pos k')
        simp only [List.getD_cons_zero] at h0
        rcases h0 with hemp | ⟨specs, hok⟩
        · exact absurd hemp hitem
        · rw [runMain, if_neg hitem]
          simp only [hok]
          rw [ih k' (n + 1) hne' hfail' hbefore']
          rw [List.take_succ_cons, List.map_cons, List.flatten_cons, harith]
          rw [itemOut, if_neg hitem, hok]

example : transform_single_hostspec ("host[1234]".data) =
    .ok [⟨⟨1234, 1234, false⟩, "host".data⟩] := by decide

example : transform_single_hostspec ("host[10-100,500]".data) =
    .ok [⟨⟨10, 100, false⟩, "host".data⟩, ⟨⟨500, 500, false⟩, "host".data⟩] := by decide

example : expandExpr ("xxx[1,2]".data) = .ok ["xxx1".data, "xxx2".data] := by decide

example : expandExpr ("host5".data) = .ok ["host5".data] := by decide

example : transform_single_hostspec ("host[1234]foo".data) = .error .ExtraStuff := by decide

example : transform_single_hostspec ("host[1-".data) = .error .NoRange := by decide

example : transform_single_hostspec ("host[abc]".data) =
    .error (.BadNumbers .invalidDigit) := by decide

example : runMain 0 ["good[1]".data, [], "bad[1-".data] =
    (["good1".data], some (2, ParseError.NoRange)) := by decide

/-! ### Claims -/

/-- Claim C1: for a bracketed expression `p[f1,...,fn]` — `p` everything
before the first `[`, the range list everything between that `[` and the
first `]` after it, nothing following that `]` — in which every
comma-separated fragment parses, decomposition succeeds and returns exactly
one Range-Spec per fragment, each with prefix `p` and the fragment's
interval, in left-to-right fragment order. -/
theorem C1_bracketed_decomposition (p rl : List Char) (ivs : List RangeIncl)
    (hp : '[' ∉ p) (hr : ']' ∉ rl)
    (hall : List.Forall₂ (fun f r => transform_numeric_range f = Except.ok r)
      (rl.splitOn ',') ivs) :
    transform_single_hostspec (p ++ '[' :: (rl ++ [']'])) =
      Except.ok (ivs.map (fun r => ⟨r, p⟩)) := by
  rw [transform_bracketed hp hr]
  exact collectSpecs_ok hall

/-- Witness for C1 at `host[1-2,5]`. -/
theorem C1_witness :
    transform_single_hostspec (("host".data) ++ '[' :: (("1-2,5".data) ++ [']'])) =
      Except.ok [⟨⟨1, 2, false⟩, "host".data⟩, ⟨⟨5, 5, false⟩, "host".data⟩] :=
  C1_bracketed_decomposition ("host".data) ("1-2,5".data)
    [⟨1, 2, false⟩, ⟨5, 5, false⟩] (by decide) (by decide)
    (List.Forall₂.cons (by decide) (List.Forall₂.cons (by decide) List.Forall₂.nil))

/-- Claim C2: a Range-Spec with prefix `p` and interval `[lo, hi]` expands
to `p ++ decimal i` for each `i` from `lo` to `hi` inclusive in ascending
order: the element at index `i` is `p ++ natToDec (lo + i)`, the length is
`hi - lo + 1` when `lo ≤ hi`, and the expansion is the empty sequence —
zero outputs, not an error — when `lo > hi`. -/
theorem C2_expansion (p : List Char) (lo hi : Nat) :
    (HostSpec.toList ⟨⟨lo, hi, false⟩, p⟩).length = hi + 1 - lo ∧
    (∀ i, i < (HostSpec.toList ⟨⟨lo, hi, false⟩, p⟩).length →
      (HostSpec.toList ⟨⟨lo, hi, false⟩, p⟩).getD i [] = p ++ natToDec (lo + i)) ∧
    (lo ≤ hi → (HostSpec.toList ⟨⟨lo, hi, false⟩, p⟩).length = hi - lo + 1) ∧
    (hi < lo → HostSpec.toList ⟨⟨lo, hi, false⟩, p⟩ = []) := by
  have hbase : HostSpec.toList ⟨⟨lo, hi, false⟩, p⟩ =
      (List.range' lo (hi + 1 - lo)).map (fun n => p ++ natToDec n) := by
    rw [HostSpec.toList]
    show (RangeIncl.toList ⟨lo, hi, false⟩).map _ = _
    rw [RangeIncl.toList_eq_range']
  refine ⟨by simp [hbase], ?_, ?_, ?_⟩
  · intro i h
    rw [hbase] at h ⊢
    simp only [List.length_map, List.length_range'] at h
    simp [List.getD_eq_getElem?_getD, List.getElem?_map, List.getElem?_range' _ _ h]
  · intro hle
    rw [hbase]
    simp
    omega
  · intro hgt
    rw [hbase]
    have h0 : hi + 1 - lo = 0 := by omega
    simp [h0]

/-- Witness for C2 at prefix `x`, interval `[5, 7]`, and at the inverted
interval `[3, 1]`. -/
theorem C2_witness :
    (HostSpec.toList ⟨⟨5, 7, false⟩, "x".data⟩).length = 7 - 5 + 1 ∧
    (HostSpec.toList ⟨⟨5, 7, false⟩, "x".data⟩).getD 1 [] = "x".data ++ natToDec (5 + 1) ∧
    HostSpec.toList ⟨⟨3, 1, false⟩, "x".data⟩ = [] :=
  ⟨(C2_expansion ("x".data) 5 7).2.2.1 (by decide),
   (C2_expansion ("x".data) 5 7).2.1 1 (by decide),
   (C2_expansion ("x".data) 3 1).2.2.2 (by decide)⟩

/-- Claim C3: a bracketed expression whose range list contains a failing
fragment (empty, non-numeric, extraneous characters, or u64 overflow)
fails with `BadNumbers` carrying the parse failure of the leftmost failing
fragment; fragments after it cannot influence the reported error. -/
theorem C3_badnumbers_leftmost (p rl : List Char) (pre post : List (List Char))
    (f : List Char) (e : ParseIntError)
    (hp : '[' ∉ p) (hr : ']' ∉ rl)
    (hsplit : rl.splitOn ',' = pre ++ f :: post)
    (hok : ∀ g ∈ pre, ∃ r, transform_numeric_range g = Except.ok r)
    (hfail : transform_numeric_range f = Except.error e) :
    transform_single_hostspec (p ++ '[' :: (rl ++ [']'])) =
      Except.error (ParseError.BadNumbers e) := by
  rw [transform_bracketed hp hr, hsplit]
  exact collectSpecs_err hok hfail

/-- Witness for C3 at `h[1,x,9]`: the failing fragment `x` is reported,
although the fragment `9` after it would succeed. -/
theorem C3_witness :
    transform_single_hostspec (("h".data) ++ '[' :: (("1,x,9".data) ++ [']'])) =
      Except.error (ParseError.BadNumbers ParseIntError.invalidDigit) :=
  C3_badnumbers_leftmost ("h".data) ("1,x,9".data) ["1".data] ["9".data]
    ("x".data) ParseIntError.invalidDigit (by decide) (by decide) (by decide)
    (by
      intro g hg
      rw [List.mem_singleton] at hg
      subst hg
      exact ⟨⟨1, 1, false⟩, by decide⟩)
    (by decide)

/-- Claim C4: for an expression containing `[`: if a `]` follows the first
`[` but characters follow that first `]`, decomposition fails with
`ExtraStuff`; if no `]` exists after the first `[`, it fails with
`NoRange`. -/
theorem C4_extrastuff_norange :
    (∀ p mid suf : List Char, '[' ∉ p → ']' ∉ mid → suf ≠ [] →
      transform_single_hostspec (p ++ '[' :: (mid ++ ']' :: suf)) =
        Except.error ParseError.ExtraStuff) ∧
    (∀ p rest : List Char, '[' ∉ p → ']' ∉ rest →
      transform_single_hostspec (p ++ '[' :: rest) =
        Except.error ParseError.NoRange) := by
  constructor
  · intro p mid suf hp hm hs
    rw [transform_single_hostspec, splitOnce_append _ hp]
    have h2 : splitOnce ']' (mid ++ ']' :: suf) = some (mid, suf) :=
      splitOnce_append suf hm
    simp [h2, hs]
  · intro p rest hp hr
    rw [transform_single_hostspec, splitOnce_append _ hp]
    have h2 : splitOnce ']' rest = none := splitOnce_of_not_mem hr
    simp [h2]

/-- Witness for C4 at `host[1234]foo` and `host[1-`. -/
theorem C4_witness :
    transform_single_hostspec (("host".data) ++ '[' :: (("1234".data) ++ ']' :: ("foo".data))) =
      Except.error ParseError.ExtraStuff ∧
    transform_single_hostspec (("host".data) ++ '[' :: ("1-".data)) =
      Except.error ParseError.NoRange :=
  ⟨C4_extrastuff_norange.1 ("host".data) ("1234".data) ("foo".data)
      (by decide) (by decide) (by decide),
   C4_extrastuff_norange.2 ("host".data) ("1-".data) (by decide) (by decide)⟩

/-- Claim C5: for an expression with no `[`, written as a prefix `p` (not
ending in a digit) followed by the maximal trailing run `d` of ASCII
digits: if `d` is empty or does not parse as u64 the decomposition fails
with `BadNumbers`, and otherwise it returns exactly one Range-Spec with
prefix `p` and interval `[N, N]` for the parsed value `N`. -/
theorem C5_bare_numeric (p d : List Char)
    (hnb : '[' ∉ p) (hd : ∀ c ∈ d, c.isDigit = true)
    (hpl : ∀ c, p.getLast? = some c → c.isDigit = false) :
    transform_single_hostspec (p ++ d) =
      (match parseU64 d with
        | .ok n => Except.ok [⟨⟨n, n, false⟩, p⟩]
        | .error e => Except.error (ParseError.BadNumbers e)) :=
  transform_bare hnb hd hpl

/-- Witness for C5 at `srv42` (success) and `srv` (empty digit run). -/
theorem C5_witness :
    transform_single_hostspec (("srv".data) ++ ("42".data)) =
      Except.ok [⟨⟨42, 42, false⟩, "srv".data⟩] ∧
    transform_single_hostspec (("srv".data) ++ ([] : List Char)) =
      Except.error (ParseError.BadNumbers ParseIntError.empty) := by
  have hpl : ∀ c, ("srv".data).getLast? = some c → c.isDigit = false := by
    intro c hc
    have hv : ("srv".data).getLast? = some 'v' := by decide
    rw [hv] at hc
    injection hc with hc
    rw [← hc]
    decide
  constructor
  · exact C5_bare_numeric ("srv".data) ("42".data) (by decide) (by decide) hpl
  · exact C5_bare_numeric ("srv".data) [] (by decide) (by decide) hpl

/-- Claim C6: the pipeline silently skips empty expressions, processes the
rest in order, and on the first decomposition failure stops, reporting the
failure with the failing expression's zero-based position among all
supplied expressions; in particular `["good[1]", "", "bad[1-"]` outputs
`good1` and aborts reporting position 2. -/
theorem C6_pipeline_first_failure :
    (∀ (items : List (List Char)) (k : Nat) (e : ParseError),
      items.getD k [] ≠ [] →
      transform_single_hostspec (items.getD k []) = Except.error e →
      (∀ i, i < k → items.getD i [] = [] ∨
        ∃ specs, transform_single_hostspec (items.getD i []) = Except.ok specs) →
      runMain 0 items = (((items.take k).map itemOut).flatten, some (k, e))) ∧
    runMain 0 [("good[1]".data), [], ("bad[1-".data)] =
      ([("good1".data)], some (2, ParseError.NoRange)) := by
  constructor
  · intro items k e hne hfail hbefore
    simpa using runMain_fail_general items k e 0 hne hfail hbefore
  · decide

/-- Witness for C6 at `["ok[2]", "", "bad[1-"]`. -/
theorem C6_witness :
    runMain 0 [("ok[2]".data), [], ("bad[1-".data)] =
      ((([("ok[2]".data), [], ("bad[1-".data)].take 2).map itemOut).flatten,
        some (2, ParseError.NoRange)) :=
  C6_pipeline_first_failure.1 [("ok[2]".data), [], ("bad[1-".data)] 2 ParseError.NoRange
    (by decide) (by decide)
    (by
      intro i hi
      match i, hi with
      | 0, _ => exact Or.inr ⟨[⟨⟨2, 2, false⟩, "ok".data⟩], by decide⟩
      | 1, _ => exact Or.inl rfl
      | n + 2, h => exact absurd h (by omega))

/-- Claim C7 counterexample: the bare numeric expression `host07` (prefix
`host`, trailing digit run `07`) expands to `host7`, not to the original
string `host07` — leading zeros are lost because the digit run is parsed as
an integer and re-rendered. -/
theorem C7_counterexample :
    expandExpr ("host07".data) = Except.ok [("host7".data)] ∧
      ¬ expandExpr ("host07".data) = Except.ok [("host07".data)] := by
  constructor <;> decide

/-- Claim C7 as amended: for a bare numeric expression `pd` (prefix `p` not
ending in a digit, trailing digit run `d`, no `[`) whose digit run parses
as a u64 value `v`, the full expansion is exactly one element, `p` followed
by the decimal rendering of `v` — which is the string `pd` itself exactly
when `d` carries no leading zeros. -/
theorem C7_bare_expansion (p d : List Char) (v : Nat)
    (hnb : '[' ∉ p) (hd : ∀ c ∈ d, c.isDigit = true)
    (hpl : ∀ c, p.getLast? = some c → c.isDigit = false)
    (hparse : parseU64 d = Except.ok v) :
    expandExpr (p ++ d) = Except.ok [p ++ natToDec v] := by
  rw [expandExpr, transform_bare hnb hd hpl, hparse]
  have h1 : RangeIncl.toList ⟨v, v, false⟩ = [v] := by
    rw [RangeIncl.toList_eq_range', show v + 1 - v = 1 from by omega, List.range'_one]
  simp [HostSpec.toList, h1]

/-- Witness for C7 at `n5`. -/
theorem C7_witness :
    expandExpr (("n".data) ++ ("5".data)) = Except.ok [("n".data) ++ natToDec 5] :=
  C7_bare_expansion ("n".data) ("5".data) 5 (by decide) (by decide)
    (by
      intro c hc
      have hv : ("n".data).getLast? = some 'n' := by decide
      rw [hv] at hc
      injection hc with hc
      rw [← hc]
      decide)
    (by decide)

/-- Claim C8 counterexample: `host[10-100,500]` expands to 92 elements, not
to "110 elements total" as the claim also asserts. -/
theorem C8_counterexample :
    (expandExpr ("host[10-100,500]".data)).toOption.map List.length = some 92 ∧
      ¬ (expandExpr ("host[10-100,500]".data)).toOption.map List.length = some 110 := by
  constructor <;> decide

/-- Claim C8 as amended: expanding `host[10-100,500]` yields 92 elements —
`host10` through `host100` (91 elements) followed by `host500` — with first
element `host10`, element at index 90 (the last of the first fragment)
`host100`, and final element `host500`. -/
theorem C8_example_expansion :
    (expandExpr ("host[10-100,500]".data)).toOption.map List.length = some 92 ∧
    (expandExpr ("host[10-100,500]".data)).toOption.bind List.head? =
      some ("host10".data) ∧
    ((expandExpr ("host[10-100,500]".data)).toOption.getD []).getD 90 [] =
      ("host100".data) ∧
    (expandExpr ("host[10-100,500]".data)).toOption.bind List.getLast? =
      some ("host500".data) := by
  refine ⟨by decide, by decide, by decide, by decide⟩

/-- Claim C9: whenever decomposition succeeds, the prefix of every returned
Range-Spec occurs verbatim inside the original expression (it is in fact a
prefix of it, hence an infix). -/
theorem C9_pfx_substring (s : List Char) (specs : List HostSpec)
    (h : transform_single_hostspec s = Except.ok specs) :
    ∀ sp ∈ specs, sp.pfx <:+: s := by
  rw [transform_single_hostspec] at h
  split at h
  next p rangesuffix hs =>
    obtain ⟨hseq, _⟩ := splitOnce_eq_some hs
    split at h
    next range suffix hs2 =>
      split at h
      next => exact absurd h (by simp)
      next =>
        intro sp hsp
        rw [collectSpecs_pfx h sp hsp, hseq]
        exact List.IsPrefix.isInfix (List.prefix_append p _)
    next hs2 => exact absurd h (by simp)
  next hs =>
    split at h
    next i hf =>
      injection h with h
      subst h
      intro sp hsp
      rw [List.mem_singleton] at hsp
      subst hsp
      rw [from_single_pfx hf]
      exact List.IsPrefix.isInfix (trimEndDigits_pre s)
    next e hf => exact absurd h (by simp)

/-- Witness for C9 at `a[1]`. -/
theorem C9_witness :
    HostSpec.pfx ⟨⟨1, 1, false⟩, "a".data⟩ <:+: ("a[1]".data) :=
  C9_pfx_substring ("a[1]".data) [⟨⟨1, 1, false⟩, "a".data⟩] (by decide)
    ⟨⟨1, 1, false⟩, "a".data⟩ (List.mem_singleton.mpr rfl)

/-- Claim C10: for every input string the digit-trimmed string is a prefix
of it, so the `strip_prefix(prefix)` call in `HostSpec::from_single` always
returns `Some` and its `unwrap` can never panic. -/
theorem C10_from_single_total (s : List Char) :
    trimEndDigits s <+: s ∧ (stripPre (trimEndDigits s) s).isSome = true :=
  ⟨trimEndDigits_pre s, stripPre_isSome_of_pre (trimEndDigits_pre s)⟩
